import Mathlib

/-!
Verification of the dokdo cross-association engine
(`src/dokdo/api/cross_association.py`) against its specification.

Numeric values are embedded as rationals (`ℚ`).  The external statistical
primitives (`scipy.stats.pearsonr`, `scipy.stats.spearmanr`, `numpy.log10`)
are opaque collaborators of the core and are threaded through as function
parameters; nothing in the claims depends on their numeric content.
A feature table / target matrix is embedded column-wise: a list of
(column name, column vector) pairs, which is faithful because the code
only ever accesses whole columns (`feats[feats.columns[i]]`,
`target[target.columns[j]]`).
-/

attribute [local semireducible] Rat.add Rat.mul Rat.inv Rat.sub

namespace Dokdo

/-- A pairwise statistic: takes two aligned numeric vectors and returns
(correlation coefficient, p-value), the shape of `pearsonr`/`spearmanr`. -/
abbrev StatFn := List ℚ → List ℚ → ℚ × ℚ

/-- A data frame embedded column-wise: (column name, column values). -/
abbrev Cols := List (String × List ℚ)

/-- Errors raised by `cross_association_table`.  Python exception classes are
mapped to the spec's error taxonomy: the `ValueError` of the normalization
dispatch is `invalidNormalization` (naming the offending string), the
`KeyError` of the `methods` dict lookup is `invalidMethod`, the `NameError`
for a free (undefined, never imported) identifier is `nameError`, and an
unrecognized multiple-testing method name is `invalidCorrectionMethod`. -/
inductive Err where
  | invalidNormalization : String → Err
  | invalidMethod : String → Err
  | nameError : String → Err
  | invalidCorrectionMethod : String → Err
  deriving DecidableEq, Repr

/-- One row of the correlation result
(`taxon, target, corr, pval, adjp`), as built by lines 126-132 of
`cross_association.py`. -/
structure Row where
  taxon : String
  target : String
  corr : ℚ
  pval : ℚ
  adjp : ℚ
  deriving DecidableEq, Repr

/-- The final `pandas.DataFrame` returned by `cross_association_table`:
its column labels in order, its index, and its rows. -/
structure Table where
  columns : List String
  index : List ℕ
  rows : List Row
  deriving DecidableEq, Repr

instance {ε α : Type} [DecidableEq ε] [DecidableEq α] :
    DecidableEq (Except ε α) := fun x y =>
  match x, y with
  | .ok a, .ok b =>
      if h : a = b then isTrue (by rw [h]) else isFalse (by simp [h])
  | .error e, .error f =>
      if h : e = f then isTrue (by rw [h]) else isFalse (by simp [h])
  | .ok _, .error _ => isFalse (by simp)
  | .error _, .ok _ => isFalse (by simp)

/-- Truthiness of the `normalize` argument: `None` and the empty string are
the falsy values a string-or-None parameter can take. -/
def optTruthy : Option String → Bool
  | none => false
  | some s => !(s == "")

/-- Normalization step, lines 98-109 of `cross_association.py`, an `elif`
chain in source order: `'log10'` applies `log10(x+1)` elementwise; `'clr'`
and `'zscore'` reference the free names `clr` / `zscore`, which are neither
defined nor imported anywhere in this repository, so those branches raise
`NameError` when executed (modelled as `Err.nameError`); `elif not
normalize` passes any falsy value (`None` or the empty string) through
unchanged; any other string raises `ValueError` naming it. -/
def normalizeFeats (log10f : ℚ → ℚ) (feats : Cols)
    (normalize : Option String) : Except Err Cols :=
  if normalize = some "log10" then
    .ok (feats.map (fun c => (c.1, c.2.map (fun x => log10f (x + 1)))))
  else if normalize = some "clr" then .error (.nameError "clr")
  else if normalize = some "zscore" then .error (.nameError "zscore")
  else if optTruthy normalize = false then .ok feats
  else .error (.invalidNormalization (normalize.getD ""))

/-- The `methods` dict of line 111,
`{'pearson': pearsonr, 'spearman': spearmanr}`: a lookup returns the mapped
statistic for the two present keys and nothing (Python `KeyError`) for any
other key. -/
def methodsLookup (pearsonr spearmanr : StatFn) (method : String) :
    Option StatFn :=
  if method = "pearson" then some pearsonr
  else if method = "spearman" then some spearmanr
  else none

/-- The pairwise correlation loop, lines 113-121.  The dict lookup
`methods[method]` happens inside the loop body, so an unknown method raises
`KeyError` (modelled `Err.invalidMethod`) only if the body runs at least
once, i.e. only if both matrices have at least one column; with zero feature
or zero target columns the zero-initialized matrices (then of degenerate
shape) are returned untouched.  The result is the features × targets grid of
(corr, pval) pairs. -/
def correlate (pearsonr spearmanr : StatFn) (method : String)
    (feats target : Cols) : Except Err (List (List (ℚ × ℚ))) :=
  match methodsLookup pearsonr spearmanr method with
  | some f => .ok (feats.map (fun fc => target.map (fun tc => f fc.2 tc.2)))
  | none =>
      if feats.isEmpty || target.isEmpty then
        .ok (feats.map (fun _ => ([] : List (ℚ × ℚ))))
      else .error (.invalidMethod method)

/-- The melt of lines 123-131: both matrices have index = feature columns and
columns = target columns; `DataFrame.melt` stacks the value columns one
after another in column order, so the flat result is target-major — for each
target column j (outer, in order), all feature rows i (inner, in order).
The `adjp` field is a placeholder `0` until the corrector fills it. -/
def meltGrid (feats target : Cols) (grid : List (List (ℚ × ℚ))) : List Row :=
  (target.enum).flatMap (fun jtc =>
    (feats.zip grid).map (fun fcrow =>
      { taxon := fcrow.1.1
        target := jtc.2.1
        corr := (fcrow.2.getD jtc.1 (0, 0)).1
        pval := (fcrow.2.getD jtc.1 (0, 0)).2
        adjp := 0 }))

/-- The melt of the grid actually produced by a successful `correlate` call,
written directly: the target-major Cartesian product of the two column
lists.  `meltGrid_applied` below proves it equal to
`meltGrid feats target` of the computed grid. -/
def productRows (feats target : Cols) (f : StatFn) : List Row :=
  target.flatMap (fun tc => feats.map (fun fc =>
    { taxon := fc.1, target := tc.1, corr := (f fc.2 tc.2).1,
      pval := (f fc.2 tc.2).2, adjp := 0 }))

/-- Clip a value to the interval [0, 1]. -/
def clip01 (x : ℚ) : ℚ := max 0 (min 1 x)

/-- Running minima from the right:
`suffixMins [a₁, …, aₙ] = [min a₁ … aₙ, min a₂ … aₙ, …, aₙ]`
(the `np.minimum.accumulate` over the reversed array used by the BH
implementation). -/
def suffixMins : List ℚ → List ℚ
  | [] => []
  | a :: rest => min a ((suffixMins rest).headD a) :: suffixMins rest

/-- Minimum of the suffix `l[k], l[k+1], …` of a list (0 if the suffix is
empty); the literal `min over k' ≥ k` of the spec's BH formula. -/
def minOfSuffix (l : List ℚ) (k : ℕ) : ℚ :=
  match l.drop k with
  | [] => 0
  | a :: rest => rest.foldl min a

/-- Ascending sort of the p-values keeping their original positions:
pairs (original index, p-value), ordered by p-value. -/
def bhSortPairs (ps : List ℚ) : List (ℕ × ℚ) :=
  (ps.enum).insertionSort (fun a b => a.2 ≤ b.2)

/-- The p-values in ascending order. -/
def bhSortedVals (ps : List ℚ) : List ℚ := (bhSortPairs ps).map (·.2)

/-- The raw BH values over the ascending-sorted p-values:
at 0-based sorted position k (rank k+1 of N), the value
`p_(k+1) * N / (k+1)`. -/
def bhRawSorted (ps : List ℚ) : List ℚ :=
  ((bhSortedVals ps).enum).map (fun ke => ke.2 * ps.length / (ke.1 + 1))

/-- Adjusted p-values in ascending-rank order: the running minimum from the
right of the raw BH values, clipped to [0, 1]. -/
def bhAdjSorted (ps : List ℚ) : List ℚ :=
  (suffixMins (bhRawSorted ps)).map clip01

/-- Modelled from the spec: `statsmodels.stats.multitest.multipletests` with
`method='fdr_bh'` is not part of this repository (only its call site at line
132 is), so the Benjamini-Hochberg procedure is modelled from the spec's
words: sort ascending, the adjusted p-value at rank k (1-indexed, N total)
is `min over k' ≥ k of p_(k') * N / k'`, clipped to [0, 1], mapped back to
the original order.  The suffix minimum is computed as a running minimum
from the right; the map back scatters each adjusted value to the original
position carried through the sort. -/
def bhAdjust (ps : List ℚ) : List ℚ :=
  let back := ((bhSortPairs ps).map (·.1)).zip (bhAdjSorted ps)
  (List.range ps.length).map (fun i =>
    (((back.find? (fun e => e.1 == i)).map (·.2)).getD 0))

/-- Modelled from the spec: the multiple-testing corrector
(`statsmodels.stats.multitest.multipletests`, external to this repository)
maps a flat sequence of p-values to a same-length sequence of adjusted
p-values; `'fdr_bh'` is the Benjamini-Hochberg procedure and an unknown
method name fails with `InvalidCorrectionMethod`. -/
def multipletests (ps : List ℚ) (method : String) : Except Err (List ℚ) :=
  if method = "fdr_bh" then .ok (bhAdjust ps) else
    .error (.invalidCorrectionMethod method)

/-- A junk row, used only as the default of `List.getD`. -/
def row0 : Row := ⟨"", "", 0, 0, 0⟩

/-- Distinct taxa appearing in a result, the pivot's row index. -/
def distinctTaxa (rows : List Row) : List String := (rows.map (·.taxon)).dedup

/-- Distinct targets appearing in a result, the pivot's column index. -/
def distinctTargets (rows : List Row) : List String :=
  (rows.map (·.target)).dedup

/-- Cell (t, g) of the `df.pivot(index='taxon', columns='target',
values='adjp')` grid: the adjusted p-value of the row for that pair, if the
pair occurs (`pivot` itself requires the pair to occur at most once; a
missing cell is NaN, which fails every `≤` comparison, hence `none`). -/
def adjpAt (rows : List Row) (t g : String) : Option ℚ :=
  (rows.find? (fun r => r.taxon == t && r.target == g)).map (·.adjp)

/-- Cell (t, g) of the pval pivot used by the heatmap marker
(`df.pivot(index='target', columns='taxon', values='pval')`). -/
def pvalAt (rows : List Row) (t g : String) : Option ℚ :=
  (rows.find? (fun r => r.taxon == t && r.target == g)).map (·.pval)

/-- Row sum of the significance grid `sig = (adjp <= alpha)` for a taxon
(line 137, `sig.sum(axis=1)`): the number of targets whose cell exists and
satisfies `adjp ≤ alpha`. -/
def sigTaxonCount (rows : List Row) (alpha : ℚ) (t : String) : ℕ :=
  ((distinctTargets rows).filter (fun g =>
    match adjpAt rows t g with
    | some a => decide (a ≤ alpha)
    | none => false)).length

/-- Column sum of the significance grid for a target (line 139,
`sig.sum(axis=0)`). -/
def sigTargetCount (rows : List Row) (alpha : ℚ) (g : String) : ℕ :=
  ((distinctTaxa rows).filter (fun t =>
    match adjpAt rows t g with
    | some a => decide (a ≤ alpha)
    | none => false)).length

/-- The significance filter, lines 134-142.  `if nsig:` is falsy for 0.
Both survivor lists are computed from the same unfiltered pivot before any
row is removed; then the rows are restricted by `isin(taxon_survivors)` and
next by `isin(target_survivors)`. -/
def filterRows (rows : List Row) (alpha : ℚ) (nsig : ℕ) : List Row :=
  if nsig = 0 then rows
  else
    let taxonSurvivors := (distinctTaxa rows).filter
      (fun t => decide (nsig ≤ sigTaxonCount rows alpha t))
    let targetSurvivors := (distinctTargets rows).filter
      (fun g => decide (nsig ≤ sigTargetCount rows alpha g))
    (rows.filter (fun r => decide (r.taxon ∈ taxonSurvivors))).filter
      (fun r => decide (r.target ∈ targetSurvivors))

/-- Number of targets significantly associated with taxon t, counted
directly on the flat unfiltered rows (the spec's reading of the taxon's
significant-count); equals `sigTaxonCount` when no (taxon, target) pair is
duplicated. -/
def sigTargetsOfTaxon (rows : List Row) (alpha : ℚ) (t : String) : ℕ :=
  (rows.filter (fun r => r.taxon == t && decide (r.adjp ≤ alpha))).length

/-- Number of taxa significantly associated with target g, counted directly
on the flat unfiltered rows. -/
def sigTaxaOfTarget (rows : List Row) (alpha : ℚ) (g : String) : ℕ :=
  (rows.filter (fun r => r.target == g && decide (r.adjp ≤ alpha))).length

/-- `cross_association_table` (lines 89-147) for a `pandas.DataFrame` input
(the `qiime2.Artifact` branches only load the same kind of table from disk
and are external I/O): normalize, correlate pairwise, melt target-major,
attach the jointly corrected p-values as column `adjp`, filter by `nsig`,
sort ascending by `pval` (`sort_values`), and reset the index to 0-based
(`reset_index(drop=True)`).  Column order records the construction:
`reset_index` at line 131 inserts the `taxon` index before the melt columns
`target, corr`, `pval` was concatenated after them, and `adjp` is appended
last. -/
def crossAssociationTable (pearsonr spearmanr : StatFn) (log10f : ℚ → ℚ)
    (feats target : Cols) (method : String) (normalize : Option String)
    (alpha : ℚ) (multitest : String) (nsig : ℕ) : Except Err Table := do
  let feats1 ← normalizeFeats log10f feats normalize
  let grid ← correlate pearsonr spearmanr method feats1 target
  let rows0 := meltGrid feats1 target grid
  let adj ← multipletests (rows0.map (·.pval)) multitest
  let rows1 := rows0.zipWith (fun r a => { r with adjp := a }) adj
  let rows2 := filterRows rows1 alpha nsig
  let rows3 := rows2.insertionSort (fun a b => a.pval ≤ b.pval)
  .ok { columns := ["taxon", "target", "corr", "pval", "adjp"],
        index := List.range rows3.length,
        rows := rows3 }

/-- The per-cell marker of `cross_association_heatmap` with `marksig=True`
(lines 236-242): `val2sig` yields `'*'` when the cell value is `≤ alpha`
and the empty string otherwise. -/
def val2sig (alpha x : ℚ) : String := if x ≤ alpha then "*" else ""

/-- Marker cell for the pair (t, g) in the heatmap's annotation grid:
`val2sig` applied to the cell of the pval pivot (a missing cell is NaN, for
which `x <= alpha` is false, hence the empty string). -/
def heatmapAnnotCell (rows : List Row) (alpha : ℚ) (t g : String) : String :=
  match pvalAt rows t g with
  | some x => val2sig alpha x
  | none => ""

/-- The annotation cell the heatmap would overlay for the pair (t, g):
`cross_association_heatmap` first computes the table with the same
arguments, then derives the marker grid from its rows. -/
def crossAssociationHeatmapCell (pearsonr spearmanr : StatFn)
    (log10f : ℚ → ℚ) (feats target : Cols) (method : String)
    (normalize : Option String) (alpha : ℚ) (multitest : String) (nsig : ℕ)
    (t g : String) : Except Err String := do
  let tbl ← crossAssociationTable pearsonr spearmanr log10f feats target
    method normalize alpha multitest nsig
  .ok (heatmapAnnotCell tbl.rows alpha t g)

/-! ## Helper lemmas -/

@[simp]
theorem error_bind {α β : Type} (e : Err) (f : α → Except Err β) :
    (Except.error e : Except Err α) >>= f = Except.error e := rfl

@[simp]
theorem ok_bind {α β : Type} (a : α) (f : α → Except Err β) :
    (Except.ok a : Except Err α) >>= f = f a := rfl

/-- Reading a mapped list below its length applies the function to the
underlying entry, whatever the defaults. -/
theorem getD_map_lt {α β : Type} (f : α → β) (l : List α) (k : ℕ)
    (hk : k < l.length) (d : β) (e : α) :
    (l.map f).getD k d = f (l.getD k e) := by
  rw [List.getD_eq_getElem (l.map f) d (by simpa using hk),
    List.getD_eq_getElem l e hk, List.getElem_map]

/-- `suffixMins` preserves length. -/
theorem suffixMins_length (l : List ℚ) :
    (suffixMins l).length = l.length := by
  induction l with
  | nil => rfl
  | cons a rest ih => simp [suffixMins, ih]

/-- Folding `min` over a list starting from `min x y` pulls `x` out. -/
theorem foldl_min_cons (x y : ℚ) (l : List ℚ) :
    List.foldl min (min x y) l = min x (List.foldl min y l) := by
  induction l generalizing y with
  | nil => rfl
  | cons z zs ih =>
    simp only [List.foldl_cons]
    rw [min_assoc]
    exact ih (min y z)

/-- The running minimum from the right computes, at every position, the
minimum of the corresponding suffix. -/
theorem suffixMins_getD (l : List ℚ) (k : ℕ) (hk : k < l.length) :
    (suffixMins l).getD k 0 = minOfSuffix l k := by
  induction l generalizing k with
  | nil => simp at hk
  | cons a rest ih =>
    cases k with
    | zero =>
      show min a ((suffixMins rest).headD a) = minOfSuffix (a :: rest) 0
      cases rest with
      | nil => simp [suffixMins, minOfSuffix]
      | cons c rs =>
        have h0 := ih 0 (by simp)
        have h1 : min c ((suffixMins rs).headD c) = List.foldl min c rs := by
          simpa [suffixMins, minOfSuffix] using h0
        show min a (min c ((suffixMins rs).headD c))
          = minOfSuffix (a :: c :: rs) 0
        rw [h1]
        show min a (List.foldl min c rs) = List.foldl min a (c :: rs)
        rw [List.foldl_cons, foldl_min_cons]
    | succ k =>
      show (suffixMins rest).getD k 0 = minOfSuffix (a :: rest) (k + 1)
      have h2 : minOfSuffix (a :: rest) (k + 1) = minOfSuffix rest k := rfl
      rw [h2]
      exact ih k (by simpa using hk)

/-- The running minima from the right form a non-decreasing sequence. -/
theorem suffixMins_chain (l : List ℚ) :
    List.Chain' (· ≤ ·) (suffixMins l) := by
  induction l with
  | nil => simp [suffixMins]
  | cons a rest ih =>
    show List.Chain' (· ≤ ·)
      (min a ((suffixMins rest).headD a) :: suffixMins rest)
    refine List.chain'_cons'.mpr ⟨?_, ih⟩
    intro y hy
    rw [List.headD_eq_head?_getD, hy]
    exact min_le_right _ _

/-- Clipping to [0, 1] is monotone. -/
theorem clip01_mono {a b : ℚ} (h : a ≤ b) : clip01 a ≤ clip01 b :=
  max_le_max le_rfl (min_le_min le_rfl h)

/-- A lower bound of the start and of every element bounds the fold. -/
theorem le_foldl_min (b x : ℚ) (l : List ℚ) (hx : b ≤ x)
    (hl : ∀ y ∈ l, b ≤ y) : b ≤ List.foldl min x l := by
  induction l generalizing x with
  | nil => exact hx
  | cons z zs ih =>
    simp only [List.foldl_cons]
    exact ih (min x z) (le_min hx (hl z (by simp)))
      (fun y hy => hl y (by simp [hy]))

/-- A lower bound of every element of the suffix bounds its minimum. -/
theorem le_minOfSuffix (l : List ℚ) (k : ℕ) (b : ℚ) (hk : k < l.length)
    (h : ∀ y ∈ l.drop k, b ≤ y) : b ≤ minOfSuffix l k := by
  unfold minOfSuffix
  cases hd : l.drop k with
  | nil =>
    exfalso
    have h2 := congrArg List.length hd
    rw [List.length_drop] at h2
    simp at h2
    omega
  | cons a rest =>
    exact le_foldl_min b a rest (h a (by rw [hd]; simp))
      (fun y hy => h y (by rw [hd]; simp [hy]))

/-- The sorted index-value pairs are a permutation of the enumeration. -/
theorem bhSortPairs_perm (ps : List ℚ) :
    (bhSortPairs ps).Perm ps.enum :=
  List.perm_insertionSort _ _

/-- Length of the sorted pair list. -/
theorem bhSortPairs_length (ps : List ℚ) :
    (bhSortPairs ps).length = ps.length := by
  rw [(bhSortPairs_perm ps).length_eq, List.enum_length]

/-- The original positions carried through the sort are a permutation of
`range N`. -/
theorem bhSortPairs_fst_perm (ps : List ℚ) :
    ((bhSortPairs ps).map Prod.fst).Perm (List.range ps.length) := by
  have h := (bhSortPairs_perm ps).map Prod.fst
  rwa [List.enum_map_fst] at h

/-- The sorted values are a permutation of the input p-values. -/
theorem bhSortedVals_perm (ps : List ℚ) : (bhSortedVals ps).Perm ps := by
  have h := (bhSortPairs_perm ps).map Prod.snd
  rwa [List.enum_map_snd] at h

/-- Length of the sorted values. -/
theorem bhSortedVals_length (ps : List ℚ) :
    (bhSortedVals ps).length = ps.length :=
  (bhSortedVals_perm ps).length_eq

/-- Length of the raw BH values. -/
theorem bhRawSorted_length (ps : List ℚ) :
    (bhRawSorted ps).length = ps.length := by
  unfold bhRawSorted
  rw [List.length_map, List.enum_length, bhSortedVals_length]

/-- Length of the rank-ordered adjusted values. -/
theorem bhAdjSorted_length (ps : List ℚ) :
    (bhAdjSorted ps).length = ps.length := by
  unfold bhAdjSorted
  rw [List.length_map, suffixMins_length, bhRawSorted_length]

/-- The sorted values are in ascending order. -/
theorem bhSortedVals_sorted (ps : List ℚ) :
    List.Pairwise (· ≤ ·) (bhSortedVals ps) := by
  haveI : IsTotal (ℕ × ℚ) (fun a b => a.2 ≤ b.2) :=
    ⟨fun a b => le_total _ _⟩
  haveI : IsTrans (ℕ × ℚ) (fun a b => a.2 ≤ b.2) :=
    ⟨fun _ _ _ hab hbc => le_trans hab hbc⟩
  have h : List.Pairwise (fun a b : ℕ × ℚ => a.2 ≤ b.2) (bhSortPairs ps) :=
    List.sorted_insertionSort _ _
  exact h.map Prod.snd (fun a b hab => hab)

/-- Each entry of the raw BH list is the sorted p-value times N over its
1-indexed rank. -/
theorem bhRawSorted_getD (ps : List ℚ) (k : ℕ)
    (hk : k < ps.length) :
    (bhRawSorted ps).getD k 0
      = (bhSortedVals ps).getD k 0 * ps.length / (k + 1) := by
  unfold bhRawSorted
  have hk1 : k < (bhSortedVals ps).length := by
    rw [bhSortedVals_length]; exact hk
  have hk2 : k < (bhSortedVals ps).enum.length := by
    rw [List.enum_length]; exact hk1
  rw [getD_map_lt _ _ k hk2 0 (0, 0),
    List.getD_eq_getElem _ (0, 0) hk2, List.getElem_enum,
    List.getD_eq_getElem _ 0 hk1]

/-- Each entry of the rank-ordered adjusted list is the clipped minimum of
the corresponding suffix of raw BH values. -/
theorem bhAdjSorted_getD (ps : List ℚ) (k : ℕ) (hk : k < ps.length) :
    (bhAdjSorted ps).getD k 0
      = clip01 (minOfSuffix (bhRawSorted ps) k) := by
  unfold bhAdjSorted
  have hk1 : k < (bhRawSorted ps).length := by
    rw [bhRawSorted_length]; exact hk
  have hk2 : k < (suffixMins (bhRawSorted ps)).length := by
    rw [suffixMins_length]; exact hk1
  rw [getD_map_lt clip01 _ k hk2 0 0, suffixMins_getD _ k hk1]

/-- Scatter lookup: with duplicate-free keys, `find?` over the zip finds
the entry at the key's position. -/
theorem find?_zip_nodup (ks : List ℕ) (vs : List ℚ) (hnd : ks.Nodup)
    (k : ℕ) (hk : k < ks.length) (hkv : k < vs.length) :
    (ks.zip vs).find? (fun e => e.1 == ks.getD k 0)
      = some (ks.getD k 0, vs.getD k 0) := by
  induction ks generalizing vs k with
  | nil => simp at hk
  | cons a ks1 ih =>
    cases vs with
    | nil => simp at hkv
    | cons v vs1 =>
      cases k with
      | zero =>
        show ((a, v) :: ks1.zip vs1).find? (fun e => e.1 == a)
          = some (a, v)
        exact List.find?_cons_of_pos _ (by simp)
      | succ k =>
        rw [List.nodup_cons] at hnd
        have hk1 : k < ks1.length := by simpa using hk
        have hkv1 : k < vs1.length := by simpa using hkv
        have hmem : ks1.getD k 0 ∈ ks1 := by
          rw [List.getD_eq_getElem ks1 0 hk1]
          exact List.getElem_mem hk1
        have hne : ¬((fun e : ℕ × ℚ => e.1 == ks1.getD k 0) (a, v))
            = true := by
          simp only [beq_iff_eq]
          intro hcontr
          exact hnd.1 (hcontr ▸ hmem)
        have hstep : ((a, v) :: ks1.zip vs1).find?
            (fun e => e.1 == ks1.getD k 0)
            = (ks1.zip vs1).find? (fun e => e.1 == ks1.getD k 0) :=
          List.find?_cons_of_neg _ hne
        show ((a, v) :: ks1.zip vs1).find?
          (fun e => e.1 == ks1.getD k 0)
          = some (ks1.getD k 0, vs1.getD k 0)
        rw [hstep]
        exact ih vs1 hnd.2 k hk1 hkv1

/-- The output of `bhAdjust` at an original position is the scatter lookup
at that position. -/
theorem bhAdjust_getD (ps : List ℚ) (i : ℕ) (hi : i < ps.length) :
    (bhAdjust ps).getD i 0
      = (((((bhSortPairs ps).map Prod.fst).zip (bhAdjSorted ps)).find?
          (fun e => e.1 == i)).map Prod.snd).getD 0 := by
  unfold bhAdjust
  rw [List.getD_eq_getElem?_getD, List.getElem?_map,
    List.getElem?_range hi]
  rfl

/-- Mapped back to the original order: the adjusted value at the original
position stored at sorted rank k is the rank-k adjusted value. -/
theorem bhAdjust_at_rank (ps : List ℚ) (k : ℕ) (hk : k < ps.length) :
    (bhAdjust ps).getD ((bhSortPairs ps).getD k (0, 0)).1 0
      = (bhAdjSorted ps).getD k 0 := by
  have hklen : k < (bhSortPairs ps).length := by
    rw [bhSortPairs_length]; exact hk
  have hkmap : k < ((bhSortPairs ps).map Prod.fst).length := by
    rw [List.length_map]; exact hklen
  have hvs : k < (bhAdjSorted ps).length := by
    rw [bhAdjSorted_length]; exact hk
  have hi : ((bhSortPairs ps).getD k (0, 0)).1
      = ((bhSortPairs ps).map Prod.fst).getD k 0 := by
    rw [getD_map_lt Prod.fst _ k hklen 0 (0, 0)]
  have hnd : ((bhSortPairs ps).map Prod.fst).Nodup :=
    (bhSortPairs_fst_perm ps).nodup_iff.mpr (List.nodup_range _)
  have hmem : ((bhSortPairs ps).map Prod.fst).getD k 0
      ∈ (bhSortPairs ps).map Prod.fst := by
    rw [List.getD_eq_getElem _ 0 hkmap]
    exact List.getElem_mem hkmap
  have hibound : ((bhSortPairs ps).map Prod.fst).getD k 0 < ps.length :=
    List.mem_range.mp ((bhSortPairs_fst_perm ps).mem_iff.mp hmem)
  rw [hi, bhAdjust_getD ps _ hibound,
    find?_zip_nodup _ (bhAdjSorted ps) hnd k hkmap hvs]
  rfl

/-- Each rank's sorted p-value is below its rank-ordered adjusted value,
for p-values in [0, 1]. -/
theorem sortedVal_le_adjSorted (ps : List ℚ)
    (hps : ∀ p ∈ ps, 0 ≤ p ∧ p ≤ 1) (k : ℕ) (hk : k < ps.length) :
    (bhSortedVals ps).getD k 0 ≤ (bhAdjSorted ps).getD k 0 := by
  set v := (bhSortedVals ps).getD k 0 with hv
  have hk1 : k < (bhSortedVals ps).length := by
    rw [bhSortedVals_length]; exact hk
  have hvmem : v ∈ bhSortedVals ps := by
    rw [hv, List.getD_eq_getElem _ 0 hk1]
    exact List.getElem_mem hk1
  obtain ⟨hv0, hv1⟩ := hps v ((bhSortedVals_perm ps).mem_iff.mp hvmem)
  rw [bhAdjSorted_getD ps k hk]
  have hkraw : k < (bhRawSorted ps).length := by
    rw [bhRawSorted_length]; exact hk
  have hmin : v ≤ minOfSuffix (bhRawSorted ps) k := by
    apply le_minOfSuffix _ k v hkraw
    intro y hy
    obtain ⟨j, hj, hje⟩ := List.getElem_of_mem hy
    have hjlen : k + j < (bhRawSorted ps).length := by
      rw [List.length_drop] at hj
      omega
    have hjlen2 : k + j < ps.length := by
      rw [← bhRawSorted_length ps]; exact hjlen
    have hy2 : y = (bhRawSorted ps).getD (k + j) 0 := by
      rw [List.getD_eq_getElem _ 0 hjlen, ← List.getElem_drop
        (bhRawSorted ps)]
      exact hje.symm
    rw [hy2, bhRawSorted_getD ps (k + j) hjlen2]
    set w := (bhSortedVals ps).getD (k + j) 0 with hw
    have hkj1 : k + j < (bhSortedVals ps).length := by
      rw [bhSortedVals_length]; exact hjlen2
    have hwmem : w ∈ bhSortedVals ps := by
      rw [hw, List.getD_eq_getElem _ 0 hkj1]
      exact List.getElem_mem hkj1
    have hw0 : 0 ≤ w :=
      (hps w ((bhSortedVals_perm ps).mem_iff.mp hwmem)).1
    have hvw : v ≤ w := by
      rcases Nat.eq_or_lt_of_le (Nat.le_add_right k j) with heq | hlt
      · rw [hv, hw, ← heq]
      · have hp := (List.pairwise_iff_getElem.mp
          (bhSortedVals_sorted ps)) k (k + j) hk1 hkj1 hlt
        rw [hv, hw, List.getD_eq_getElem _ 0 hk1,
          List.getD_eq_getElem _ 0 hkj1]
        exact hp
    have hden : (0 : ℚ) < (k + j : ℕ) + 1 := by positivity
    have hNk : ((k + j : ℕ) : ℚ) + 1 ≤ (ps.length : ℚ) := by
      exact_mod_cast hjlen2
    calc v ≤ w := hvw
      _ ≤ w * ps.length / ((k + j : ℕ) + 1) := by
          rw [le_div_iff₀ hden]
          exact mul_le_mul_of_nonneg_left hNk hw0
  calc v ≤ min 1 (minOfSuffix (bhRawSorted ps) k) := le_min hv1 hmin
    _ ≤ clip01 (minOfSuffix (bhRawSorted ps) k) := le_max_right _ _

/-- BH is inflationary: at every original position the adjusted p-value is
at least the raw p-value, for p-values in [0, 1]. -/
theorem bh_ge_pval_at (ps : List ℚ) (hps : ∀ p ∈ ps, 0 ≤ p ∧ p ≤ 1)
    (i : ℕ) (hi : i < ps.length) :
    ps.getD i 0 ≤ (bhAdjust ps).getD i 0 := by
  have himem : i ∈ (bhSortPairs ps).map Prod.fst :=
    (bhSortPairs_fst_perm ps).mem_iff.mpr (List.mem_range.mpr hi)
  obtain ⟨k, hkmap, hke⟩ := List.mem_iff_getElem.mp himem
  have hklen : k < (bhSortPairs ps).length := by simpa using hkmap
  have hk : k < ps.length := by rw [← bhSortPairs_length ps]; exact hklen
  have hefst : ((bhSortPairs ps).getD k (0, 0)).1 = i := by
    rw [← hke, ← List.getD_eq_getElem _ 0 hkmap,
      getD_map_lt Prod.fst _ k hklen 0 (0, 0)]
  have hemem : (bhSortPairs ps).getD k (0, 0) ∈ bhSortPairs ps := by
    rw [List.getD_eq_getElem _ _ hklen]
    exact List.getElem_mem hklen
  have heenum : (bhSortPairs ps).getD k (0, 0) ∈ ps.enum :=
    (bhSortPairs_perm ps).mem_iff.mp hemem
  have hpse : ps[((bhSortPairs ps).getD k (0, 0)).1]?
      = some ((bhSortPairs ps).getD k (0, 0)).2 :=
    List.mem_enum_iff_getElem?.mp heenum
  have hpsi : ps.getD i 0 = ((bhSortPairs ps).getD k (0, 0)).2 := by
    rw [← hefst, List.getD_eq_getElem?_getD, hpse]
    rfl
  have hsnd : ((bhSortPairs ps).getD k (0, 0)).2
      = (bhSortedVals ps).getD k 0 := by
    unfold bhSortedVals
    rw [getD_map_lt Prod.snd _ k hklen 0 (0, 0)]
  rw [hpsi, hsnd, ← hefst, bhAdjust_at_rank ps k hk]
  exact sortedVal_le_adjSorted ps hps k hk

/-- The rank-ordered adjusted values are non-decreasing. -/
theorem bhAdjSorted_pairwise (ps : List ℚ) :
    List.Pairwise (· ≤ ·) (bhAdjSorted ps) := by
  unfold bhAdjSorted
  have hp := List.chain'_iff_pairwise.mp (suffixMins_chain (bhRawSorted ps))
  exact hp.map clip01 (fun _ _ hab => clip01_mono hab)

/-- Under uniqueness of (key, value) pairs, `find?` for a row's own key and
value returns exactly that row. -/
theorem find?_key_val (keyf valf : Row → String) (rows : List Row)
    (hnd : (rows.map (fun r => (keyf r, valf r))).Nodup) (r : Row)
    (hr : r ∈ rows) :
    rows.find? (fun x => keyf x == keyf r && valf x == valf r) = some r := by
  induction rows with
  | nil => cases hr
  | cons a l ih =>
    rw [List.map_cons, List.nodup_cons] at hnd
    rcases List.mem_cons.mp hr with h | h
    · subst h
      exact List.find?_cons_of_pos _ (by simp)
    · have hne : ¬((keyf a == keyf r && valf a == valf r) = true) := by
        intro hcontr
        simp only [Bool.and_eq_true, beq_iff_eq] at hcontr
        exact hnd.1 (by
          rw [hcontr.1, hcontr.2]
          exact List.mem_map_of_mem _ h)
      have hstep : List.find? (fun x => keyf x == keyf r && valf x == valf r)
          (a :: l)
          = List.find? (fun x => keyf x == keyf r && valf x == valf r) l :=
        List.find?_cons_of_neg l hne
      rw [hstep]
      exact ih hnd.2 h

/-- The pivot-grid count (over the distinct values, looking each cell up
with `find?`) equals the flat count over the rows, provided no (key, value)
pair is duplicated. -/
theorem grid_count_eq (keyf valf : Row → String)
    (pred : String → String → Row → Bool)
    (hpred : ∀ t g x, pred t g x = (keyf x == t && valf x == g))
    (rows : List Row)
    (hnd : (rows.map (fun r => (keyf r, valf r))).Nodup) (alpha : ℚ)
    (t : String) :
    (((rows.map valf).dedup).filter (fun g =>
        match (rows.find? (pred t g)).map (fun r => r.adjp) with
        | some a => decide (a ≤ alpha)
        | none => false)).length
      = (rows.filter (fun r => keyf r == t && decide (r.adjp ≤ alpha))).length
    := by
  classical
  have hrows : rows.Nodup := hnd.of_map
  set P : String → Bool := fun g =>
    match (rows.find? (pred t g)).map (fun r => r.adjp) with
    | some a => decide (a ≤ alpha)
    | none => false with hP
  set Q : Row → Bool := fun r => keyf r == t && decide (r.adjp ≤ alpha)
    with hQ
  have hPiff : ∀ g, P g = true ↔
      ∃ r', rows.find? (pred t g) = some r' ∧ r'.adjp ≤ alpha := by
    intro g
    cases hfind : rows.find? (pred t g) with
    | none => simp [hP, hfind]
    | some r' => simp [hP, hfind]
  have hQiff : ∀ r, Q r = true ↔ keyf r = t ∧ r.adjp ≤ alpha := by
    intro r
    simp [hQ]
  have hfind_self : ∀ r, r ∈ rows → keyf r = t →
      rows.find? (pred t (valf r)) = some r := by
    intro r hrr hkr
    have h0 := find?_key_val keyf valf rows hnd r hrr
    have hfun : pred t (valf r) =
        fun x => keyf x == keyf r && valf x == valf r := by
      funext x
      rw [hpred, hkr]
    rw [hfun]
    exact h0
  have hLnd := (List.nodup_dedup (rows.map valf)).filter P
  have hRnd := hrows.filter Q
  rw [← List.toFinset_card_of_nodup hLnd, ← List.toFinset_card_of_nodup hRnd]
  refine Finset.card_bij' (fun g _ => (rows.find? (pred t g)).getD row0)
    (fun r _ => valf r) ?_ ?_ ?_ ?_
  · intro g hg
    dsimp only
    rw [List.mem_toFinset, List.mem_filter] at hg
    obtain ⟨r', hfind, hle⟩ := (hPiff g).mp hg.2
    rw [hfind, Option.getD_some, List.mem_toFinset, List.mem_filter]
    have hpr' := List.find?_some hfind
    rw [hpred] at hpr'
    simp only [Bool.and_eq_true, beq_iff_eq] at hpr'
    exact ⟨List.mem_of_find?_eq_some hfind,
      (hQiff r').mpr ⟨hpr'.1, hle⟩⟩
  · intro r hr
    dsimp only
    rw [List.mem_toFinset, List.mem_filter] at hr
    obtain ⟨hkr, hle⟩ := (hQiff r).mp hr.2
    rw [List.mem_toFinset, List.mem_filter]
    refine ⟨List.mem_dedup.mpr (List.mem_map_of_mem _ hr.1), ?_⟩
    exact (hPiff (valf r)).mpr ⟨r, hfind_self r hr.1 hkr, hle⟩
  · intro g hg
    dsimp only
    rw [List.mem_toFinset, List.mem_filter] at hg
    obtain ⟨r', hfind, _⟩ := (hPiff g).mp hg.2
    rw [hfind, Option.getD_some]
    have hpr' := List.find?_some hfind
    rw [hpred] at hpr'
    simp only [Bool.and_eq_true, beq_iff_eq] at hpr'
    exact hpr'.2
  · intro r hr
    dsimp only
    rw [List.mem_toFinset, List.mem_filter] at hr
    obtain ⟨hkr, _⟩ := (hQiff r).mp hr.2
    rw [hfind_self r hr.1 hkr, Option.getD_some]

/-- The taxon row-sum of the significance grid equals the flat count of
that taxon's significant rows when no (taxon, target) pair repeats. -/
theorem sigTaxonCount_eq_flat (rows : List Row) (alpha : ℚ)
    (hnd : (rows.map (fun r => (r.taxon, r.target))).Nodup) (t : String) :
    sigTaxonCount rows alpha t = sigTargetsOfTaxon rows alpha t := by
  have h := grid_count_eq (fun r => r.taxon) (fun r => r.target)
    (fun t g x => x.taxon == t && x.target == g) (fun _ _ _ => rfl)
    rows hnd alpha t
  simpa [sigTaxonCount, distinctTargets, adjpAt, sigTargetsOfTaxon] using h

/-- The target column-sum of the significance grid equals the flat count of
that target's significant rows when no (taxon, target) pair repeats. -/
theorem sigTargetCount_eq_flat (rows : List Row) (alpha : ℚ)
    (hnd : (rows.map (fun r => (r.taxon, r.target))).Nodup) (g : String) :
    sigTargetCount rows alpha g = sigTaxaOfTarget rows alpha g := by
  have hnd' : (rows.map (fun r => (r.target, r.taxon))).Nodup := by
    have h2 : rows.map (fun r => (r.target, r.taxon))
        = (rows.map (fun r => (r.taxon, r.target))).map Prod.swap := by
      rw [List.map_map]
      rfl
    rw [h2]
    exact hnd.map Prod.swap_injective
  have h := grid_count_eq (fun r => r.target) (fun r => r.taxon)
    (fun g t x => x.taxon == t && x.target == g)
    (fun _ _ _ => Bool.and_comm _ _) rows hnd' alpha g
  simpa [sigTargetCount, distinctTaxa, adjpAt, sigTaxaOfTarget] using h

/-- With `nsig = 0` the significance filter is the identity. -/
theorem filterRows_zero (rows : List Row) (alpha : ℚ) :
    filterRows rows alpha 0 = rows := if_pos rfl

/-- Successful normalization never changes the column names. -/
theorem normalizeFeats_ok_names (l : ℚ → ℚ) (feats : Cols)
    (nm : Option String) (feats1 : Cols)
    (h : normalizeFeats l feats nm = .ok feats1) :
    feats1.map Prod.fst = feats.map Prod.fst := by
  unfold normalizeFeats at h
  split_ifs at h
  all_goals
    first
    | exact Except.noConfusion h
    | (rw [← Except.ok.inj h, List.map_map]
       exact List.map_congr_left (fun c _ => rfl))
    | rw [← Except.ok.inj h]

/-- A successful correction returns the BH-adjusted values. -/
theorem multipletests_ok (ps : List ℚ) (mt : String) (adj : List ℚ)
    (h : multipletests ps mt = .ok adj) : adj = bhAdjust ps := by
  unfold multipletests at h
  split_ifs at h
  exact (Except.ok.inj h).symm

/-- BH adjustment preserves the length of the p-value sequence. -/
theorem bhAdjust_length (ps : List ℚ) : (bhAdjust ps).length = ps.length := by
  simp [bhAdjust]

/-- Attaching the adjusted column preserves the number of rows. -/
theorem zipWith_adjp_length (rows : List Row) (adj : List ℚ)
    (h : adj.length = rows.length) :
    (rows.zipWith (fun r a => { r with adjp := a }) adj).length
      = rows.length := by
  rw [List.length_zipWith, h, min_self]

/-- Attaching the adjusted column changes no (taxon, target) count. -/
theorem countP_pair_zipWith (rows : List Row) (adj : List ℚ)
    (h : adj.length = rows.length) (a b : String) :
    List.countP (fun r => r.taxon == a && r.target == b)
        (rows.zipWith (fun r x => { r with adjp := x }) adj)
      = List.countP (fun r => r.taxon == a && r.target == b) rows := by
  induction rows generalizing adj with
  | nil => simp
  | cons r rs ih =>
    cases adj with
    | nil => simp at h
    | cons x xs =>
      simp only [List.zipWith_cons_cons, List.countP_cons,
        ih xs (by simpa using h)]

/-- The melt of the grid a successful `correlate` produces is the
target-major Cartesian product of the column lists. -/
theorem meltGrid_applied (feats target : Cols) (f : StatFn) :
    meltGrid feats target
        (feats.map (fun fc => target.map (fun tc => f fc.2 tc.2)))
      = productRows feats target f := by
  unfold meltGrid productRows
  have hz : feats.zip
        (feats.map (fun fc => target.map (fun tc => f fc.2 tc.2)))
      = feats.map (fun fc => (fc, target.map (fun tc => f fc.2 tc.2))) := by
    have h0 := List.zip_map' id
      (fun fc : String × List ℚ => target.map (fun tc => f fc.2 tc.2)) feats
    rw [List.map_id] at h0
    simpa using h0
  rw [hz, List.flatMap_def, List.flatMap_def]
  apply congrArg List.flatten
  have h1 : ∀ jtc ∈ target.enum,
      (feats.map
          (fun fc => (fc, target.map (fun tc => f fc.2 tc.2)))).map
          (fun fcrow => Row.mk fcrow.1.1 jtc.2.1
            (fcrow.2.getD jtc.1 (0, 0)).1 (fcrow.2.getD jtc.1 (0, 0)).2 0)
        = feats.map (fun fc => Row.mk fc.1 jtc.2.1
            (f fc.2 jtc.2.2).1 (f fc.2 jtc.2.2).2 0) := by
    intro jtc hj
    rw [List.map_map]
    apply List.map_congr_left
    intro fc _
    have hget : (target.map (fun tc => f fc.2 tc.2)).getD jtc.1 (0, 0)
        = f fc.2 jtc.2.2 := by
      rw [List.getD_eq_getElem?_getD, List.getElem?_map,
        List.mem_enum_iff_getElem?.mp hj]
      rfl
    simp only [Function.comp_apply, hget]
  rw [List.map_congr_left h1]
  conv_rhs => rw [← List.enum_map_snd target]
  rw [List.map_map]
  rfl

/-- The Cartesian product has `|features| * |targets|` rows. -/
theorem productRows_length (feats target : Cols) (f : StatFn) :
    (productRows feats target f).length
      = feats.length * target.length := by
  induction target with
  | nil => simp [productRows]
  | cons tc ts ih =>
    unfold productRows at ih ⊢
    rw [List.flatMap_cons, List.length_append, List.length_map, ih,
      List.length_cons]
    ring

/-- Counting a fixed (taxon, target) pair in the Cartesian product. -/
theorem productRows_countP (feats target : Cols) (f : StatFn)
    (a b : String) :
    List.countP (fun r => r.taxon == a && r.target == b)
        (productRows feats target f)
      = List.countP (fun fc => fc.1 == a) feats
        * List.countP (fun tc => tc.1 == b) target := by
  induction target with
  | nil => simp [productRows]
  | cons tc ts ih =>
    unfold productRows at ih ⊢
    rw [List.flatMap_cons, List.countP_append, ih, List.countP_map,
      List.countP_cons]
    by_cases hb : (tc.1 == b) = true
    · have hhead : List.countP
          ((fun r : Row => r.taxon == a && r.target == b) ∘
            (fun fc => Row.mk fc.1 tc.1 (f fc.2 tc.2).1 (f fc.2 tc.2).2 0))
          feats
          = List.countP (fun fc => fc.1 == a) feats := by
        apply List.countP_congr
        intro fc _
        simp [hb]
      rw [hhead, if_pos hb, Nat.mul_add, Nat.mul_one]
      omega
    · have hhead : List.countP
          ((fun r : Row => r.taxon == a && r.target == b) ∘
            (fun fc => Row.mk fc.1 tc.1 (f fc.2 tc.2).1 (f fc.2 tc.2).2 0))
          feats = 0 := by
        apply List.countP_eq_zero.mpr
        intro fc _
        simp [hb]
      rw [hhead, if_neg hb]
      ring

/-- Counting a column name through the name-preservation of
normalization. -/
theorem countP_fst_eq (l1 l2 : Cols)
    (hn : l1.map Prod.fst = l2.map Prod.fst) (a : String) :
    List.countP (fun c => c.1 == a) l1
      = List.countP (fun c => c.1 == a) l2 := by
  have h1 : List.countP (fun x => x == a) (l1.map Prod.fst)
      = List.countP (fun x => x == a) (l2.map Prod.fst) := by rw [hn]
  simpa [List.countP_map] using h1

/-- A column whose name occurs in a duplicate-free name list is counted
exactly once. -/
theorem countP_name_one (l : Cols) (hn : (l.map Prod.fst).Nodup)
    (c : String × List ℚ) (hc : c ∈ l) :
    List.countP (fun x => x.1 == c.1) l = 1 := by
  have h1 : List.count c.1 (l.map Prod.fst) = 1 :=
    List.count_eq_one_of_mem hn (List.mem_map_of_mem _ hc)
  have h2 : List.count c.1 (l.map Prod.fst)
      = List.countP (fun x => x == c.1) (l.map Prod.fst) := rfl
  rw [h2] at h1
  simpa [List.countP_map] using h1

/-- Successful runs of the pipeline decompose into successful stages, and
the resulting table is the sorted, filtered, adjp-extended melt with a
freshly reset 0-based index and the five construction columns. -/
theorem table_ok_elim (p s : StatFn) (l : ℚ → ℚ) (feats target : Cols)
    (method : String) (normalize : Option String) (alpha : ℚ) (mt : String)
    (nsig : ℕ) (tbl : Table)
    (h : crossAssociationTable p s l feats target method normalize alpha mt
      nsig = .ok tbl) :
    ∃ feats1 grid adj,
      normalizeFeats l feats normalize = .ok feats1 ∧
      correlate p s method feats1 target = .ok grid ∧
      multipletests ((meltGrid feats1 target grid).map (fun r => r.pval)) mt
        = .ok adj ∧
      tbl.rows = (filterRows
          ((meltGrid feats1 target grid).zipWith
            (fun r a => { r with adjp := a }) adj) alpha nsig).insertionSort
          (fun a b => a.pval ≤ b.pval) ∧
      tbl.index = List.range tbl.rows.length ∧
      tbl.columns = ["taxon", "target", "corr", "pval", "adjp"] := by
  unfold crossAssociationTable at h
  cases hn : normalizeFeats l feats normalize with
  | error e =>
    rw [hn, error_bind] at h
    exact Except.noConfusion h
  | ok feats1 =>
    rw [hn, ok_bind] at h
    cases hc : correlate p s method feats1 target with
    | error e =>
      rw [hc, error_bind] at h
      exact Except.noConfusion h
    | ok grid =>
      rw [hc, ok_bind] at h
      dsimp only [] at h
      cases hm : multipletests
          ((meltGrid feats1 target grid).map (fun r => r.pval)) mt with
      | error e =>
        rw [hm, error_bind] at h
        exact Except.noConfusion h
      | ok adj =>
        rw [hm, ok_bind] at h
        have htbl := (Except.ok.inj h).symm
        exact ⟨feats1, grid, adj, rfl, hc, hm, by rw [htbl],
          by rw [htbl], by rw [htbl]⟩

/-! ## Claim theorems -/

/-- C8: the spec (and the function's own docstring) promises that
`normalize='clr'` replaces each row `x` by `clr(x + 1)`; the code as it
stands cannot do this: the identifier `clr` is referenced at line 101 but
is never imported or defined anywhere in the repository, so every call with
`normalize='clr'` raises `NameError` instead of normalizing, and no
correlation result is produced. -/
theorem clr_branch_raises_nameError (p s : StatFn) (l : ℚ → ℚ)
    (feats target : Cols) (method : String) (alpha : ℚ) (mt : String)
    (nsig : ℕ) :
    crossAssociationTable p s l feats target method (some "clr") alpha mt
      nsig = .error (.nameError "clr") := rfl

/-- C5 counterexample: the empty string is outside the recognized set
{none, log10, clr, zscore}, yet the code does not fail on it: `elif not
normalize` treats every falsy value as "no normalization", so the call
returns a table instead of an `InvalidNormalization` error. -/
theorem empty_string_normalization_cex :
    crossAssociationTable (fun _ _ => (1, 1/2)) (fun _ _ => (1, 1/2)) id
        [("f", [1, 2])] [("t", [3, 4])] "spearman" (some "") (1/20)
        "fdr_bh" 0 =
      .ok ⟨["taxon", "target", "corr", "pval", "adjp"], [0],
        [⟨"f", "t", 1, 1/2, 1/2⟩]⟩
    ∧ crossAssociationTable (fun _ _ => (1, 1/2)) (fun _ _ => (1, 1/2)) id
        [("f", [1, 2])] [("t", [3, 4])] "spearman" (some "") (1/20)
        "fdr_bh" 0 ≠ .error (.invalidNormalization "") := by decide

/-- C5 amended: for every truthy (non-empty) normalization string outside
{log10, clr, zscore}, the normalization step fails with a `ValueError`
(`InvalidNormalization`) naming the offending string and no correlation
result is produced; falsy values (`None` and the empty string) are instead
treated as "no normalization". -/
theorem invalid_normalization_errors (p s : StatFn) (l : ℚ → ℚ)
    (feats target : Cols) (method : String) (v : String) (alpha : ℚ)
    (mt : String) (nsig : ℕ) (h0 : v ≠ "") (h1 : v ≠ "log10")
    (h2 : v ≠ "clr") (h3 : v ≠ "zscore") :
    crossAssociationTable p s l feats target method (some v) alpha mt nsig
      = .error (.invalidNormalization v) := by
  simp [crossAssociationTable, normalizeFeats, optTruthy, h0, h1, h2, h3,
    Except.bind]

/-- C5 witness: instantiation of `invalid_normalization_errors` at the
concrete unknown method string `"sqrt"`. -/
theorem invalid_normalization_errors_witness :
    crossAssociationTable (fun _ _ => (0, 0)) (fun _ _ => (0, 0)) id
        [("f", [1])] [("t", [2])] "spearman" (some "sqrt") (1/20) "fdr_bh" 0
      = .error (.invalidNormalization "sqrt") :=
  invalid_normalization_errors (fun _ _ => (0, 0)) (fun _ _ => (0, 0)) id
    [("f", [1])] [("t", [2])] "spearman" "sqrt" (1/20) "fdr_bh" 0
    (by decide) (by decide) (by decide) (by decide)

/-- C6 counterexample: with zero feature columns the correlation loop body
never runs, so the `methods[method]` lookup never happens: calling the
engine with `method='kendall'` on an empty feature matrix returns empty
matrices successfully instead of failing with `InvalidMethod`. -/
theorem invalid_method_empty_cex :
    correlate (fun _ _ => ((0:ℚ), (0:ℚ))) (fun _ _ => ((0:ℚ), (0:ℚ)))
        "kendall" [] [("t1", [1])] = .ok []
      ∧ correlate (fun _ _ => ((0:ℚ), (0:ℚ))) (fun _ _ => ((0:ℚ), (0:ℚ)))
          "kendall" [] [("t1", [1])] ≠ .error (.invalidMethod "kendall")
      ∧ "kendall" ∉ (["pearson", "spearman"] : List String) := by decide

/-- C6 amended: for every correlation method outside {pearson, spearman},
the engine fails with `InvalidMethod` (the `KeyError` of the dict lookup)
and returns no correlation or p-value matrix, provided the feature matrix
and the target matrix each have at least one column; with zero columns on
either side the method name is never consulted and degenerate empty
matrices are returned. -/
theorem invalid_method_errors (p s : StatFn) (method : String)
    (feats target : Cols) (hf : feats ≠ []) (ht : target ≠ [])
    (h1 : method ≠ "pearson") (h2 : method ≠ "spearman") :
    correlate p s method feats target = .error (.invalidMethod method) := by
  cases feats with
  | nil => exact absurd rfl hf
  | cons a fs =>
    cases target with
    | nil => exact absurd rfl ht
    | cons b ts => simp [correlate, methodsLookup, h1, h2]

/-- C6 witness: instantiation of `invalid_method_errors` at
`method = "kendall"` with one feature column and one target column. -/
theorem invalid_method_errors_witness :
    correlate (fun _ _ => ((0:ℚ), (0:ℚ))) (fun _ _ => ((0:ℚ), (0:ℚ)))
        "kendall" [("f", [1])] [("t", [2])]
      = .error (.invalidMethod "kendall") :=
  invalid_method_errors (fun _ _ => ((0:ℚ), (0:ℚ)))
    (fun _ _ => ((0:ℚ), (0:ℚ))) "kendall" [("f", [1])] [("t", [2])]
    (by decide) (by decide) (by decide) (by decide)

/-- C2: with `min_significant_count = k > 0`, the significance filter keeps
exactly the rows whose taxon has at least k significant targets and whose
target has at least k significant taxa (intersection of the two
conditions), both counts measured as `adjp ≤ alpha` over the full
unfiltered rows before any removal. -/
theorem filter_intersection (rows : List Row) (alpha : ℚ) (k : ℕ)
    (hk : 0 < k) (hnd : (rows.map (fun r => (r.taxon, r.target))).Nodup)
    (r : Row) :
    r ∈ filterRows rows alpha k ↔
      r ∈ rows ∧ k ≤ sigTargetsOfTaxon rows alpha r.taxon
        ∧ k ≤ sigTaxaOfTarget rows alpha r.target := by
  unfold filterRows
  rw [if_neg (Nat.pos_iff_ne_zero.mp hk)]
  simp only [List.mem_filter, decide_eq_true_eq]
  rw [sigTaxonCount_eq_flat rows alpha hnd r.taxon,
    sigTargetCount_eq_flat rows alpha hnd r.target]
  constructor
  · rintro ⟨⟨h1, _, h2⟩, _, h3⟩
    exact ⟨h1, h2, h3⟩
  · rintro ⟨h1, h2, h3⟩
    have htx : r.taxon ∈ distinctTaxa rows := by
      unfold distinctTaxa
      exact List.mem_dedup.mpr (List.mem_map_of_mem _ h1)
    have htg : r.target ∈ distinctTargets rows := by
      unfold distinctTargets
      exact List.mem_dedup.mpr (List.mem_map_of_mem _ h1)
    exact ⟨⟨h1, htx, h2⟩, htg, h3⟩

/-- C2 witness: instantiation of `filter_intersection` on a concrete
four-row correlation result with `alpha = 1/2` and `k = 1`. -/
theorem filter_intersection_witness :
    (⟨"f1", "t1", 0, 1/25, 4/25⟩ : Row) ∈
        filterRows
          [⟨"f1", "t1", 0, 1/25, 4/25⟩, ⟨"f2", "t1", 0, 6/25, 12/25⟩,
            ⟨"f1", "t2", 0, 1/2, 2/3⟩, ⟨"f2", "t2", 0, 7/10, 7/10⟩]
          (1/2) 1 ↔
      (⟨"f1", "t1", 0, 1/25, 4/25⟩ : Row) ∈
          ([⟨"f1", "t1", 0, 1/25, 4/25⟩, ⟨"f2", "t1", 0, 6/25, 12/25⟩,
            ⟨"f1", "t2", 0, 1/2, 2/3⟩, ⟨"f2", "t2", 0, 7/10, 7/10⟩] :
            List Row)
        ∧ 1 ≤ sigTargetsOfTaxon
            [⟨"f1", "t1", 0, 1/25, 4/25⟩, ⟨"f2", "t1", 0, 6/25, 12/25⟩,
              ⟨"f1", "t2", 0, 1/2, 2/3⟩, ⟨"f2", "t2", 0, 7/10, 7/10⟩]
            (1/2) "f1"
        ∧ 1 ≤ sigTaxaOfTarget
            [⟨"f1", "t1", 0, 1/25, 4/25⟩, ⟨"f2", "t1", 0, 6/25, 12/25⟩,
              ⟨"f1", "t2", 0, 1/2, 2/3⟩, ⟨"f2", "t2", 0, 7/10, 7/10⟩]
            (1/2) "t1" :=
  filter_intersection
    [⟨"f1", "t1", 0, 1/25, 4/25⟩, ⟨"f2", "t1", 0, 6/25, 12/25⟩,
      ⟨"f1", "t2", 0, 1/2, 2/3⟩, ⟨"f2", "t2", 0, 7/10, 7/10⟩]
    (1/2) 1 (by decide) (by decide) ⟨"f1", "t1", 0, 1/25, 4/25⟩

/-- C10: with `nsig = 0` the table is independent of `alpha`: two calls to
`cross_association_table` differing only in `alpha` return identical
tables, because `alpha` is consulted only inside the `if nsig:` filter
block (and, downstream, by the heatmap markers). -/
theorem table_alpha_independent (p s : StatFn) (l : ℚ → ℚ)
    (feats target : Cols) (method : String) (normalize : Option String)
    (alpha alpha2 : ℚ) (mt : String) :
    crossAssociationTable p s l feats target method normalize alpha mt 0 =
      crossAssociationTable p s l feats target method normalize alpha2 mt 0
    := by
  simp [crossAssociationTable, filterRows]

/-- C3 counterexample: a concrete run in which the pair (f1, t1) has raw
p-value 1/25 ≤ alpha = 1/20 but adjusted p-value 4/25 > alpha: the heatmap
cell is marked `'*'` even though `adjp ≤ alpha` fails, because the marker
logic pivots `values='pval'`, not `adjp`. -/
theorem heatmap_marker_uses_raw_pval_cex :
    crossAssociationHeatmapCell (fun x y => (0, x.headD 0 + y.headD 0))
        (fun x y => (0, x.headD 0 + y.headD 0)) id
        [("f1", [0]), ("f2", [1/5])] [("t1", [1/25]), ("t2", [1/2])]
        "spearman" none (1/20) "fdr_bh" 0 "f1" "t1" = .ok "*"
      ∧ (crossAssociationTable (fun x y => (0, x.headD 0 + y.headD 0))
          (fun x y => (0, x.headD 0 + y.headD 0)) id
          [("f1", [0]), ("f2", [1/5])] [("t1", [1/25]), ("t2", [1/2])]
          "spearman" none (1/20) "fdr_bh" 0).map
            (fun tbl => adjpAt tbl.rows "f1" "t1") = .ok (some (4/25))
      ∧ ¬ ((4:ℚ)/25 ≤ 1/20) := by decide

/-- C3 amended: with the significance-marking flag set, a heatmap cell for
the pair (t, g) is `'*'` if and only if the pair occurs in the table and
its RAW p-value `pval` (not the adjusted `adjp`) satisfies `pval ≤ alpha`;
the empty string otherwise. -/
theorem heatmap_marker_iff_raw_pval (rows : List Row) (alpha : ℚ)
    (t g : String) :
    heatmapAnnotCell rows alpha t g = "*" ↔
      ∃ x, pvalAt rows t g = some x ∧ x ≤ alpha := by
  unfold heatmapAnnotCell val2sig
  cases h : pvalAt rows t g with
  | none => simp
  | some x =>
    by_cases hc : x ≤ alpha
    · simp [hc]
    · simp [hc]

/-- C4: with distinct feature columns, distinct target columns and
`min_significant_count = 0`, every successful run returns a table with
exactly `|features| × |targets|` rows, in which each (taxon, target) pair
of the Cartesian product appears exactly once. -/
theorem table_shape (p s : StatFn) (l : ℚ → ℚ) (feats target : Cols)
    (method : String) (normalize : Option String) (alpha : ℚ) (mt : String)
    (hf : (feats.map Prod.fst).Nodup) (ht : (target.map Prod.fst).Nodup)
    (tbl : Table)
    (h : crossAssociationTable p s l feats target method normalize alpha mt
      0 = .ok tbl) :
    tbl.rows.length = feats.length * target.length ∧
      ∀ fc ∈ feats, ∀ tc ∈ target,
        (tbl.rows.filter
          (fun r => r.taxon == fc.1 && r.target == tc.1)).length = 1 := by
  obtain ⟨feats1, grid, adj, hn, hc, hm, hrows, _, _⟩ :=
    table_ok_elim p s l feats target method normalize alpha mt 0 tbl h
  have hnames := normalizeFeats_ok_names l feats normalize feats1 hn
  have hlen1 : feats1.length = feats.length := by
    have h2 := congrArg List.length hnames
    simpa using h2
  have hadj := multipletests_ok _ mt adj hm
  have hadjlen : adj.length = (meltGrid feats1 target grid).length := by
    rw [hadj, bhAdjust_length, List.length_map]
  have hperm : tbl.rows.Perm ((meltGrid feats1 target grid).zipWith
      (fun r a => { r with adjp := a }) adj) := by
    rw [hrows, filterRows_zero]
    exact List.perm_insertionSort _ _
  have hlen : tbl.rows.length = (meltGrid feats1 target grid).length := by
    rw [hperm.length_eq]
    exact zipWith_adjp_length _ adj hadjlen
  have hcount : ∀ a b : String,
      List.countP (fun r => r.taxon == a && r.target == b) tbl.rows
        = List.countP (fun r => r.taxon == a && r.target == b)
            (meltGrid feats1 target grid) := by
    intro a b
    rw [List.Perm.countP_eq _ hperm]
    exact countP_pair_zipWith _ adj hadjlen a b
  unfold correlate at hc
  cases hml : methodsLookup p s method with
  | some f =>
    rw [hml] at hc
    dsimp only at hc
    have hgrid := (Except.ok.inj hc).symm
    subst hgrid
    rw [meltGrid_applied] at hlen hcount
    constructor
    · rw [hlen, productRows_length, hlen1]
    · intro fc hfc tc htc
      rw [← List.countP_eq_length_filter, hcount, productRows_countP,
        countP_fst_eq feats1 feats hnames fc.1]
      have hone1 := countP_name_one feats hf fc hfc
      have hone2 := countP_name_one target ht tc htc
      rw [hone1, hone2]
  | none =>
    rw [hml] at hc
    dsimp only at hc
    split_ifs at hc with hemp
    have hgrid := (Except.ok.inj hc).symm
    subst hgrid
    rw [Bool.or_eq_true] at hemp
    have hmelt : meltGrid feats1 target (feats1.map (fun _ => [])) = [] := by
      rcases hemp with he | he
      · rw [List.isEmpty_iff.mp he]
        simp [meltGrid]
      · rw [List.isEmpty_iff.mp he]
        simp [meltGrid]
    rw [hmelt] at hlen hcount
    rcases hemp with he | he
    · have hfe : feats = [] := by
        have h3 := hnames.symm
        rw [List.isEmpty_iff.mp he] at h3
        simp only [List.map_nil] at h3
        exact List.map_eq_nil_iff.mp h3
      subst hfe
      refine ⟨by simpa using hlen, ?_⟩
      intro fc hfc
      exact absurd hfc (List.not_mem_nil _)
    · have hte : target = [] := List.isEmpty_iff.mp he
      subst hte
      refine ⟨by simpa using hlen, ?_⟩
      intro fc hfc tc htc
      exact absurd htc (List.not_mem_nil _)

/-- C4 witness: instantiation of `table_shape` on a concrete 2 × 2 run. -/
theorem table_shape_witness :
    (Table.rows ⟨["taxon", "target", "corr", "pval", "adjp"],
        [0, 1, 2, 3],
        [⟨"f1", "t1", 0, 1/25, 4/25⟩, ⟨"f2", "t1", 0, 6/25, 12/25⟩,
          ⟨"f1", "t2", 0, 1/2, 2/3⟩,
          ⟨"f2", "t2", 0, 7/10, 7/10⟩]⟩).length
      = ([("f1", [0]), ("f2", [1/5])] : Cols).length
          * ([("t1", [1/25]), ("t2", [1/2])] : Cols).length
    ∧ ∀ fc ∈ ([("f1", [0]), ("f2", [1/5])] : Cols),
        ∀ tc ∈ ([("t1", [1/25]), ("t2", [1/2])] : Cols),
        ((Table.rows ⟨["taxon", "target", "corr", "pval", "adjp"],
            [0, 1, 2, 3],
            [⟨"f1", "t1", 0, 1/25, 4/25⟩, ⟨"f2", "t1", 0, 6/25, 12/25⟩,
              ⟨"f1", "t2", 0, 1/2, 2/3⟩,
              ⟨"f2", "t2", 0, 7/10, 7/10⟩]⟩).filter
          (fun r => r.taxon == fc.1 && r.target == tc.1)).length = 1 :=
  table_shape (fun x y => (0, x.headD 0 + y.headD 0))
    (fun x y => (0, x.headD 0 + y.headD 0)) id
    [("f1", [0]), ("f2", [1/5])] [("t1", [1/25]), ("t2", [1/2])]
    "spearman" none (1/20) "fdr_bh" (by decide) (by decide)
    ⟨["taxon", "target", "corr", "pval", "adjp"], [0, 1, 2, 3],
      [⟨"f1", "t1", 0, 1/25, 4/25⟩, ⟨"f2", "t1", 0, 6/25, 12/25⟩,
        ⟨"f1", "t2", 0, 1/2, 2/3⟩, ⟨"f2", "t2", 0, 7/10, 7/10⟩]⟩
    (by decide)

/-- C7: every table the pipeline returns is sorted ascending by raw
p-value, its index is the contiguous 0-based sequence, and its columns
are, in order, `taxon, target, corr, pval, adjp`. -/
theorem table_presentation (p s : StatFn) (l : ℚ → ℚ) (feats target : Cols)
    (method : String) (normalize : Option String) (alpha : ℚ) (mt : String)
    (nsig : ℕ) (tbl : Table)
    (h : crossAssociationTable p s l feats target method normalize alpha mt
      nsig = .ok tbl) :
    List.Sorted (fun a b : Row => a.pval ≤ b.pval) tbl.rows ∧
      tbl.index = List.range tbl.rows.length ∧
      tbl.columns = ["taxon", "target", "corr", "pval", "adjp"] := by
  obtain ⟨feats1, grid, adj, _, _, _, hrows, hidx, hcols⟩ :=
    table_ok_elim p s l feats target method normalize alpha mt nsig tbl h
  refine ⟨?_, hidx, hcols⟩
  rw [hrows]
  haveI : IsTotal Row (fun a b : Row => a.pval ≤ b.pval) :=
    ⟨fun a b => le_total _ _⟩
  haveI : IsTrans Row (fun a b : Row => a.pval ≤ b.pval) :=
    ⟨fun _ _ _ hab hbc => le_trans hab hbc⟩
  exact List.sorted_insertionSort _ _

/-- C7 witness: instantiation of `table_presentation` on a concrete
successful run with four result rows. -/
theorem table_presentation_witness :
    List.Sorted (fun a b : Row => a.pval ≤ b.pval)
        (Table.rows ⟨["taxon", "target", "corr", "pval", "adjp"],
          [0, 1, 2, 3],
          [⟨"f1", "t1", 0, 1/25, 4/25⟩, ⟨"f2", "t1", 0, 6/25, 12/25⟩,
            ⟨"f1", "t2", 0, 1/2, 2/3⟩, ⟨"f2", "t2", 0, 7/10, 7/10⟩]⟩) ∧
      Table.index ⟨["taxon", "target", "corr", "pval", "adjp"],
          [0, 1, 2, 3],
          [⟨"f1", "t1", 0, 1/25, 4/25⟩, ⟨"f2", "t1", 0, 6/25, 12/25⟩,
            ⟨"f1", "t2", 0, 1/2, 2/3⟩, ⟨"f2", "t2", 0, 7/10, 7/10⟩]⟩
        = List.range (Table.rows ⟨["taxon", "target", "corr", "pval",
            "adjp"], [0, 1, 2, 3],
          [⟨"f1", "t1", 0, 1/25, 4/25⟩, ⟨"f2", "t1", 0, 6/25, 12/25⟩,
            ⟨"f1", "t2", 0, 1/2, 2/3⟩,
            ⟨"f2", "t2", 0, 7/10, 7/10⟩]⟩).length ∧
      Table.columns ⟨["taxon", "target", "corr", "pval", "adjp"],
          [0, 1, 2, 3],
          [⟨"f1", "t1", 0, 1/25, 4/25⟩, ⟨"f2", "t1", 0, 6/25, 12/25⟩,
            ⟨"f1", "t2", 0, 1/2, 2/3⟩, ⟨"f2", "t2", 0, 7/10, 7/10⟩]⟩
        = ["taxon", "target", "corr", "pval", "adjp"] :=
  table_presentation (fun x y => (0, x.headD 0 + y.headD 0))
    (fun x y => (0, x.headD 0 + y.headD 0)) id
    [("f1", [0]), ("f2", [1/5])] [("t1", [1/25]), ("t2", [1/2])]
    "spearman" none (1/20) "fdr_bh" 0
    ⟨["taxon", "target", "corr", "pval", "adjp"], [0, 1, 2, 3],
      [⟨"f1", "t1", 0, 1/25, 4/25⟩, ⟨"f2", "t1", 0, 6/25, 12/25⟩,
        ⟨"f1", "t2", 0, 1/2, 2/3⟩, ⟨"f2", "t2", 0, 7/10, 7/10⟩]⟩
    (by decide)

/-- C1: for every sequence of p-values in [0, 1], the corrector with
method fdr_bh returns the Benjamini-Hochberg adjusted values: after
sorting ascending, the adjusted value at 0-based rank k is the minimum of
`p * N / rank` over all ranks ≥ k, clipped to [0, 1], mapped back to the
original position carried through the sort; in particular
[0.01, 0.02, 0.03, 0.50] yields [0.04, 0.04, 0.04, 0.50]. -/
theorem bh_fdr_correct (ps : List ℚ) (hps : ∀ p ∈ ps, 0 ≤ p ∧ p ≤ 1) :
    multipletests ps "fdr_bh" = .ok (bhAdjust ps)
      ∧ (∀ k, k < ps.length →
          (bhAdjSorted ps).getD k 0
              = clip01 (minOfSuffix (bhRawSorted ps) k)
            ∧ (bhAdjust ps).getD ((bhSortPairs ps).getD k (0, 0)).1 0
              = (bhAdjSorted ps).getD k 0)
      ∧ bhAdjust [1/100, 2/100, 3/100, 50/100]
          = [4/100, 4/100, 4/100, 50/100] :=
  ⟨rfl,
    fun k hk => ⟨bhAdjSorted_getD ps k hk, bhAdjust_at_rank ps k hk⟩,
    by decide⟩

/-- C1 witness: instantiation of `bh_fdr_correct` at the concrete sequence
[0.01, 0.02, 0.03, 0.50]. -/
theorem bh_fdr_correct_witness :
    multipletests [1/100, 2/100, 3/100, 50/100] "fdr_bh"
        = .ok (bhAdjust [1/100, 2/100, 3/100, 50/100])
      ∧ (∀ k, k < ([1/100, 2/100, 3/100, 50/100] : List ℚ).length →
          (bhAdjSorted [1/100, 2/100, 3/100, 50/100]).getD k 0
              = clip01 (minOfSuffix
                  (bhRawSorted [1/100, 2/100, 3/100, 50/100]) k)
            ∧ (bhAdjust [1/100, 2/100, 3/100, 50/100]).getD
                ((bhSortPairs [1/100, 2/100, 3/100, 50/100]).getD k
                  (0, 0)).1 0
              = (bhAdjSorted [1/100, 2/100, 3/100, 50/100]).getD k 0)
      ∧ bhAdjust [1/100, 2/100, 3/100, 50/100]
          = [4/100, 4/100, 4/100, 50/100] :=
  bh_fdr_correct [1/100, 2/100, 3/100, 50/100] (by decide)

/-- C9: BH correction is inflationary and rank-monotone for p-values in
[0, 1]: at every original position the adjusted value is at least the raw
value, and the adjusted values are non-decreasing in ascending-rank
order. -/
theorem bh_monotone (ps : List ℚ) (hps : ∀ p ∈ ps, 0 ≤ p ∧ p ≤ 1) :
    (∀ i, i < ps.length → ps.getD i 0 ≤ (bhAdjust ps).getD i 0)
      ∧ List.Pairwise (· ≤ ·) (bhAdjSorted ps) :=
  ⟨fun i hi => bh_ge_pval_at ps hps i hi, bhAdjSorted_pairwise ps⟩

/-- C9 witness: instantiation of `bh_monotone` at the concrete sequence
[0.5, 0.01, 0.8, 0.04]. -/
theorem bh_monotone_witness :
    (∀ i, i < ([1/2, 1/100, 4/5, 1/25] : List ℚ).length →
        ([1/2, 1/100, 4/5, 1/25] : List ℚ).getD i 0
          ≤ (bhAdjust [1/2, 1/100, 4/5, 1/25]).getD i 0)
      ∧ List.Pairwise (· ≤ ·) (bhAdjSorted [1/2, 1/100, 4/5, 1/25]) :=
  bh_monotone [1/2, 1/100, 4/5, 1/25] (by decide)

end Dokdo
